import Mathlib

/-!
Verification of the admission-control / timeslot scheduler of the
BQC-testes repository (`quantumnet/components/controller.py` together with
the dispatch entry point `Network.execute_request` of
`quantumnet/components/network.py`).

The Python controller is embedded shallowly:

* a `Request` is the dictionary the caller submits, restricted to the
  fields the scheduler reads (`alice_id`, `bob_id`, `num_qubits`,
  `len(quantum_circuit.data)`, `protocol`, and the optional
  `circuit_depth` / `slice_path` entries);
* `Controller.occupied_routes` (a Python dict from link to timeslot) is an
  association list `Occ` with the dict's update/lookup/pop semantics;
* `Controller.scheduled_requests` (dict from timeslot to list of requests,
  insertion ordered) is an association list `Table`;
* the network collaborator is reduced to the interface the scheduler uses:
  the routing oracle `short_route_valid` (its defining file is not part of
  the sources; following the architecture description it is an external,
  clock-neutral query, so it is a parameter `oracle : Nat → Nat → Option (List Nat)`
  of every scheduler operation), the boolean execution entry point, and the
  integer timeslot counter, carried as the `clock` field of the state.

Each claim-level theorem is stated over these definitions and is preceded
by a doc comment naming the claim.
-/

namespace QNet

/-- The protocol names that appear in the repository's requests and in the
dispatch `if/elif` chain of `Network.execute_request` (`AC_BQC`,
`BFK_BQC`); `QKD_E91` occurs in requests only, so at dispatch time it falls
into the unrecognized-protocol branch. -/
inductive Protocol where
  | acbqc
  | bfkbqc
  | qkde91
deriving DecidableEq, Repr

/-- A request dictionary, restricted to the keys the scheduler and the
dispatcher read.  `qc_data_len` stands for `len(request['quantum_circuit'].data)`,
the only property of the circuit the controller uses. -/
structure Request where
  alice_id : Nat
  bob_id : Nat
  num_qubits : Nat
  qc_data_len : Nat
  protocol : Protocol
  circuit_depth : Option Nat
  slice_path : Option (List Nat)
deriving DecidableEq, Repr

/-- One hop of a route: an ordered pair of adjacent node ids, exactly the
`(route[i], route[i+1])` tuples the controller builds. -/
abbrev Link := Nat × Nat

/-- `Controller.occupied_routes`: a Python dict from link to the timeslot it
was last reserved for.  Embedded as an association list with unique keys
maintained by `occSet`/`occErase`. -/
abbrev Occ := List (Link × Nat)

/-- Dict lookup `occupied_routes.get(link)`. -/
def occGet : Occ → Link → Option Nat
  | [], _ => none
  | p :: rest, l => if p.1 = l then some p.2 else occGet rest l

/-- Dict assignment `occupied_routes[link] = timeslot` (overwrites the
entry for the key if present, else adds one). -/
def occSet : Occ → Link → Nat → Occ
  | [], l, t => [(l, t)]
  | p :: rest, l, t => if p.1 = l then (l, t) :: rest else p :: occSet rest l t

/-- Dict removal `occupied_routes.pop(link, None)` (a no-op when the key is
absent). -/
def occErase : Occ → Link → Occ
  | [], _ => []
  | p :: rest, l => if p.1 = l then occErase rest l else p :: occErase rest l

/-- The links of a route: the consecutive pairs
`(route[i], route[i+1])`, `i = 0 .. len(route) - 2`. -/
def links : List Nat → List Link
  | a :: b :: rest => (a, b) :: links (b :: rest)
  | _ => []

/-- `Controller.is_route_available(route, timeslot)`: every link of the
route must have a recorded timeslot different from the queried one (or no
record at all). -/
def is_route_available (occ : Occ) (route : List Nat) (timeslot : Nat) : Bool :=
  (links route).all fun link => ! (occGet occ link == some timeslot)

/-- `Controller.reserve_route(route, timeslot)`: record `timeslot` for
every link of the route, overwriting previous records. -/
def reserve_route (occ : Occ) (route : List Nat) (timeslot : Nat) : Occ :=
  (links route).foldl (fun acc link => occSet acc link timeslot) occ

/-- `Controller.release_route(route)`: drop the record of every link of
the route. -/
def release_route (occ : Occ) (route : List Nat) : Occ :=
  (links route).foldl (fun acc link => occErase acc link) occ

theorem occGet_occSet (occ : Occ) (a l : Link) (t : Nat) :
    occGet (occSet occ a t) l = if l = a then some t else occGet occ l := by
  induction occ with
  | nil =>
    by_cases h : l = a
    · simp [occSet, occGet, h]
    · have hal : ¬ a = l := fun hh => h hh.symm
      simp [occSet, occGet, h, hal]
  | cons p rest ih =>
    by_cases hpa : p.1 = a
    · by_cases hla : l = a
      · simp [occSet, occGet, hpa, hla]
      · have hal : ¬ a = l := fun hh => hla hh.symm
        simp [occSet, occGet, hpa, hla, hal]
    · by_cases hlp : p.1 = l
      · have hla : ¬ l = a := fun hh => hpa (hh ▸ hlp)
        simp [occSet, occGet, hpa, hlp, hla]
      · simp [occSet, occGet, hpa, hlp, ih]

theorem occGet_foldl_set (L : List Link) (t : Nat) :
    ∀ occ l, occGet (L.foldl (fun acc link => occSet acc link t) occ) l
      = if l ∈ L then some t else occGet occ l := by
  induction L with
  | nil => intro occ l; simp
  | cons a L ih =>
    intro occ l
    by_cases hl : l ∈ a :: L
    · rcases List.mem_cons.mp hl with h | h
      · by_cases hL : l ∈ L
        · simp [List.foldl_cons, ih, hL, hl]
        · simp [List.foldl_cons, ih, hL, hl, occGet_occSet, h]
      · simp [List.foldl_cons, ih, h, hl]
    · have h1 : ¬ l ∈ L := fun h => hl (List.mem_cons_of_mem _ h)
      have h2 : ¬ l = a := fun h => hl (h ▸ List.mem_cons_self a L)
      simp [List.foldl_cons, ih, h1, hl, occGet_occSet, h2]

theorem occGet_reserve_route (occ : Occ) (route : List Nat) (T : Nat) (l : Link) :
    occGet (reserve_route occ route T) l
      = if l ∈ links route then some T else occGet occ l :=
  occGet_foldl_set (links route) T occ l

/-- **C2.** Immediately after `reserve_route(r, T)` (no intervening reserve
or release), `is_route_available(q, T)` is `False` for every route `q`
sharing at least one link with `r`, while `is_route_available(r, T')` is
`True` for every timeslot `T' ≠ T`: the single-slot-per-link model detects
a conflict only at the link's last-recorded timeslot. -/
theorem C2_reserve_route_exclusivity
    (occ : Occ) (r q : List Nat) (T T' : Nat) (l : Link)
    (hr : 2 ≤ r.length) (hlr : l ∈ links r) (hlq : l ∈ links q) (hT : T' ≠ T) :
    is_route_available (reserve_route occ r T) q T = false ∧
    is_route_available (reserve_route occ r T) r T' = true := by
  constructor
  · have hget : occGet (reserve_route occ r T) l = some T := by
      rw [occGet_reserve_route]; simp [hlr]
    rcases h : is_route_available (reserve_route occ r T) q T with _ | _
    · rfl
    · exfalso
      have := List.all_eq_true.mp h l hlq
      simp [hget] at this
  · apply List.all_eq_true.mpr
    intro link hlink
    rw [occGet_reserve_route]
    simp [hlink]
    exact fun h => hT h.symm

/-- Witness for C2 at a concrete input: reserve route `[0,1,2]` at
timeslot 3; route `[5,0,1]` shares link `(0,1)` and is unavailable at 3,
while `[0,1,2]` itself is available at 4. -/
theorem C2_reserve_route_exclusivity_witness :
    (2 ≤ ([0,1,2] : List Nat).length ∧ ((0,1) : Link) ∈ links [0,1,2] ∧
      ((0,1) : Link) ∈ links [5,0,1] ∧ (4 : Nat) ≠ 3) ∧
    (is_route_available (reserve_route [] [0,1,2] 3) [5,0,1] 3 = false ∧
     is_route_available (reserve_route [] [0,1,2] 3) [0,1,2] 4 = true) :=
  ⟨by decide,
   C2_reserve_route_exclusivity [] [0,1,2] [5,0,1] 3 4 (0,1)
     (by decide) (by decide) (by decide) (by decide)⟩

/-- The largest timeslot recorded in the reservation table (`0` when the
table is empty).  Every recorded timeslot is bounded by it, which is what
makes the unbounded forward scan of `find_next_available_timeslot`
terminate. -/
def maxTs (occ : Occ) : Nat := (occ.map (fun p => p.2)).foldr max 0

theorem occGet_le_maxTs (occ : Occ) (l : Link) (t : Nat)
    (h : occGet occ l = some t) : t ≤ maxTs occ := by
  induction occ with
  | nil => simp [occGet] at h
  | cons p rest ih =>
    simp only [occGet] at h
    by_cases hpl : p.1 = l
    · simp [hpl] at h
      simp [maxTs, ← h]
    · simp [hpl] at h
      have := ih h
      simp only [maxTs, List.map_cons, List.foldr_cons]
      exact le_trans this (le_max_right _ _)

theorem avail_of_gt_maxTs (occ : Occ) (route : List Nat) (t : Nat)
    (h : maxTs occ < t) : is_route_available occ route t = true := by
  apply List.all_eq_true.mpr
  intro link _
  rcases hg : occGet occ link with _ | u
  · simp
  · have := occGet_le_maxTs occ link u hg
    simp
    omega

/-- The scanning loop of `Controller.find_next_available_timeslot`:
`while not self.is_route_available(route, current): current += 1`.
The source loop carries no bound; `fuel` is an upper bound on the number
of iterations, used only to express the loop as a total function.  The
theorems below show a fuel of `maxTs occ + 2` is never exhausted, so the
embedding computes exactly what the loop computes. -/
def findNextAux (occ : Occ) (route : List Nat) : Nat → Nat → Nat
  | 0, t => t
  | fuel + 1, t =>
    if is_route_available occ route t then t
    else findNextAux occ route fuel (t + 1)

/-- `Controller.find_next_available_timeslot(route)`; `clock` is the value
of `self.network.get_timeslot()` the loop starts from. -/
def find_next_available_timeslot (occ : Occ) (clock : Nat) (route : List Nat) : Nat :=
  findNextAux occ route (maxTs occ + 2) clock

theorem findNextAux_spec (occ : Occ) (route : List Nat) :
    ∀ fuel t, (∃ u, t ≤ u ∧ u < t + fuel ∧ is_route_available occ route u = true) →
      t ≤ findNextAux occ route fuel t ∧
      is_route_available occ route (findNextAux occ route fuel t) = true ∧
      ∀ v, t ≤ v → v < findNextAux occ route fuel t →
        is_route_available occ route v = false := by
  intro fuel
  induction fuel with
  | zero =>
    intro t ⟨u, hu1, hu2, _⟩
    omega
  | succ fuel ih =>
    intro t ⟨u, hu1, hu2, hu3⟩
    by_cases hav : is_route_available occ route t = true
    · simp only [findNextAux]
      rw [if_pos hav]
      exact ⟨le_refl t, hav, fun v hv1 hv2 => absurd hv1 (by omega)⟩
    · have hwit : ∃ u, t + 1 ≤ u ∧ u < t + 1 + fuel ∧
          is_route_available occ route u = true := by
        refine ⟨u, ?_, by omega, hu3⟩
        rcases Nat.lt_or_ge t u with h | h
        · omega
        · exact absurd (le_antisymm h hu1 ▸ hu3) hav
      obtain ⟨h1, h2, h3⟩ := ih (t + 1) hwit
      simp only [findNextAux, hav, if_false, Bool.false_eq_true]
      refine ⟨by omega, h2, fun v hv1 hv2 => ?_⟩
      rcases Nat.lt_or_ge v (t + 1) with h | h
      · have : v = t := by omega
        exact this ▸ (Bool.not_eq_true _).mp hav
      · exact h3 v h hv2

theorem find_next_exists_witness (occ : Occ) (route : List Nat) (clock : Nat) :
    ∃ u, clock ≤ u ∧ u < clock + (maxTs occ + 2) ∧
      is_route_available occ route u = true := by
  refine ⟨max clock (maxTs occ + 1), le_max_left _ _, ?_, ?_⟩
  · rcases Nat.le_total clock (maxTs occ + 1) with h | h
    · rw [Nat.max_eq_right h]; omega
    · rw [Nat.max_eq_left h]; omega
  · exact avail_of_gt_maxTs occ route _ (by omega)

/-- **C6.** `find_next_available_timeslot` scans forward in steps of `1`
from the network's current timeslot and returns the smallest timeslot
`t ≥ clock` at which the route is available.  The source loop has no
explicit upper bound, but for every reservation table of the actual shape
(each link mapping to at most one recorded timeslot) the scan terminates:
any fuel of at least `maxTs occ + 2` iterations is enough and yields the
same answer. -/
theorem C6_find_next_available_timeslot_least (occ : Occ) (clock : Nat) (route : List Nat) :
    clock ≤ find_next_available_timeslot occ clock route ∧
    is_route_available occ route (find_next_available_timeslot occ clock route) = true ∧
    (∀ v, clock ≤ v → v < find_next_available_timeslot occ clock route →
      is_route_available occ route v = false) ∧
    (∀ fuel, maxTs occ + 2 ≤ fuel →
      findNextAux occ route fuel clock = find_next_available_timeslot occ clock route) := by
  obtain ⟨h1, h2, h3⟩ := findNextAux_spec occ route (maxTs occ + 2) clock
    (find_next_exists_witness occ route clock)
  refine ⟨h1, h2, h3, fun fuel hfuel => ?_⟩
  obtain ⟨u, hu1, hu2, hu3⟩ := find_next_exists_witness occ route clock
  obtain ⟨g1, g2, g3⟩ := findNextAux_spec occ route fuel clock
    ⟨u, hu1, by omega, hu3⟩
  rcases Nat.lt_trichotomy (findNextAux occ route fuel clock)
      (find_next_available_timeslot occ clock route) with h | h | h
  · have := h3 _ g1 h
    rw [g2] at this
    exact absurd this (by simp)
  · exact h
  · have := g3 _ h1 h
    rw [h2] at this
    exact absurd this (by simp)

/-- Witness for the fuel-independence clause of C6 at a concrete input:
with one recorded link `(0,1) ↦ 3`, fuel `10` exceeds the needed bound and
computes the same slot as the definition. -/
theorem C6_find_next_available_timeslot_least_witness :
    (maxTs [(((0 : Nat), (1 : Nat)), (3 : Nat))] + 2 ≤ 10) ∧
    findNextAux [(((0 : Nat), (1 : Nat)), (3 : Nat))] [0, 1] 10 3
      = find_next_available_timeslot [(((0 : Nat), (1 : Nat)), (3 : Nat))] 3 [0, 1] :=
  ⟨by decide,
   (C6_find_next_available_timeslot_least [(((0 : Nat), (1 : Nat)), (3 : Nat))] 3 [0, 1]).2.2.2
     10 (by decide)⟩

/-- Availability always holds at the slot the scan returns (the loop only
stops on an available slot, and the fuel is sufficient). -/
theorem find_next_avail (occ : Occ) (clock : Nat) (route : List Nat) :
    is_route_available occ route (find_next_available_timeslot occ clock route) = true :=
  (findNextAux_spec occ route (maxTs occ + 2) clock
    (find_next_exists_witness occ route clock)).2.1

/-- `Controller.scheduled_requests`: Python dict from timeslot to the
insertion-ordered list of requests placed there, embedded as an
association list in key-insertion order. -/
abbrev Table := List (Nat × List Request)

/-- Dict lookup `scheduled_requests.get(ts)` / `scheduled_requests[ts]`. -/
def tableGet : Table → Nat → Option (List Request)
  | [], _ => none
  | e :: rest, ts => if e.1 = ts then some e.2 else tableGet rest ts

/-- The list scheduled at `ts`, defaulting to `[]`. -/
def tableGetD (table : Table) (ts : Nat) : List Request :=
  (tableGet table ts).getD []

/-- Membership test `ts in scheduled_requests`. -/
def tableHasKey (table : Table) (ts : Nat) : Bool :=
  (tableGet table ts).isSome

/-- `scheduled_requests.setdefault(ts, []).append(request)`: append to the
existing list for a present key, else add a new key at the end. -/
def tableAppend : Table → Nat → Request → Table
  | [], ts, req => [(ts, [req])]
  | e :: rest, ts, req =>
    if e.1 = ts then (e.1, e.2 ++ [req]) :: rest else e :: tableAppend rest ts req

/-- `del scheduled_requests[ts]`. -/
def tableErase : Table → Nat → Table
  | [], _ => []
  | e :: rest, ts => if e.1 = ts then tableErase rest ts else e :: tableErase rest ts

/-- All requests currently in the table, in table order. -/
def tableFlatten (table : Table) : List Request :=
  (table.map (fun e => e.2)).flatten

/-- The routing oracle `self.network.networklayer.short_route_valid`.  Its
defining module is not among the sources; the architecture notes describe
it as a synchronous query `(client, server) → Route | none` with no clock
side effect when used by the scheduler, so every scheduler operation is
parameterized by such a function. -/
abbrev Oracle := Nat → Nat → Option (List Nat)

/-- The scheduler-facing mutable fields of `Controller` that
`try_schedule_request` touches, plus the network's timeslot counter. -/
structure SchedSt where
  table : Table
  occ : Occ
  clock : Nat
deriving DecidableEq, Repr

/-- `Controller.share_timeslot(route, timeslot)`: scan the timeslot's
requests from most recently added to oldest; recompute each one's route
through the oracle and declare a conflict when the node sets `route[:-1]`
and `existing_route[:-1]` intersect.  (On a `None` oracle result the
source would raise a `TypeError` before comparing; with the deterministic
oracle of this embedding every scheduled request was admitted with a
truthy route, so that branch is unreachable; it is mapped to the
conflict-free answer via `getD []`.) -/
def share_timeslot (oracle : Oracle) (table : Table) (route : List Nat)
    (timeslot : Nat) : Bool :=
  match tableGet table timeslot with
  | none => true
  | some reqs =>
    reqs.reverse.all fun req =>
      let existing := (oracle req.alice_id req.bob_id).getD []
      ! route.dropLast.any (fun x => existing.dropLast.contains x)

/-- `Controller.try_schedule_request(request, current_timeslot)`: get a
route from the oracle (clock-neutral query); if the current timeslot
already has requests and `share_timeslot` admits the route, reserve and
append there; otherwise reserve and append at
`find_next_available_timeslot`'s slot if available; return `False` only
when the oracle result is falsy. -/
def try_schedule_request (oracle : Oracle) (st : SchedSt) (req : Request)
    (current_timeslot : Nat) : Bool × SchedSt :=
  match oracle req.alice_id req.bob_id with
  | none => (false, st)
  | some route =>
    if route.isEmpty then (false, st)
    else if tableHasKey st.table current_timeslot
        && share_timeslot oracle st.table route current_timeslot then
      (true, { st with occ := reserve_route st.occ route current_timeslot,
                       table := tableAppend st.table current_timeslot req })
    else
      let next := find_next_available_timeslot st.occ st.clock route
      if is_route_available st.occ route next then
        (true, { st with occ := reserve_route st.occ route next,
                         table := tableAppend st.table next req })
      else (false, st)

/-- On a success, `try_schedule_request` appends the request at a single
slot, reserves the route there, and leaves the clock alone. -/
theorem try_schedule_success_shape (oracle : Oracle) (st : SchedSt) (req : Request)
    (cts : Nat) (route : List Nat)
    (hor : oracle req.alice_id req.bob_id = some route) (hne : route ≠ []) :
    (try_schedule_request oracle st req cts).1 = true ∧
    ∃ ts, (try_schedule_request oracle st req cts).2
      = { st with occ := reserve_route st.occ route ts,
                  table := tableAppend st.table ts req } := by
  rw [try_schedule_request, hor]
  simp only [List.isEmpty_iff]
  rw [if_neg hne]
  by_cases hshare : (tableHasKey st.table cts
      && share_timeslot oracle st.table route cts) = true
  · rw [if_pos hshare]
    exact ⟨rfl, cts, rfl⟩
  · rw [if_neg hshare, if_pos (find_next_avail st.occ st.clock route)]
    exact ⟨rfl, find_next_available_timeslot st.occ st.clock route, rfl⟩

/-- On a failure, `try_schedule_request` changes nothing, and the oracle
result was falsy. -/
theorem try_schedule_fail_shape (oracle : Oracle) (st : SchedSt) (req : Request)
    (cts : Nat)
    (h : (try_schedule_request oracle st req cts).1 = false) :
    (try_schedule_request oracle st req cts).2 = st ∧
    (oracle req.alice_id req.bob_id = none ∨
     oracle req.alice_id req.bob_id = some []) := by
  rcases hor : oracle req.alice_id req.bob_id with _ | route
  · rw [try_schedule_request, hor] at h ⊢
    exact ⟨rfl, Or.inl rfl⟩
  · rcases hroute : route with _ | ⟨a, rest⟩
    · rw [try_schedule_request, hor, hroute] at h ⊢
      exact ⟨rfl, Or.inr rfl⟩
    · exfalso
      have := (try_schedule_success_shape oracle st req cts route hor
        (by rw [hroute]; exact List.cons_ne_nil a rest)).1
      rw [this] at h
      exact Bool.true_eq_false.mp h

/-- **C10.** Whenever the routing oracle returns a (truthy) route for the
request's endpoints, `try_schedule_request` returns `True` and appends the
request to exactly one timeslot's list — the fallback's availability check
at the slot returned by `find_next_available_timeslot` always succeeds by
construction — so `try_schedule_request` returns `False` only when no
route is found. -/
theorem C10_try_schedule_total (oracle : Oracle) (st : SchedSt) (req : Request)
    (cts : Nat) (route : List Nat)
    (hor : oracle req.alice_id req.bob_id = some route) (hne : route ≠ []) :
    (try_schedule_request oracle st req cts).1 = true ∧
    (∃ ts, (try_schedule_request oracle st req cts).2.table
        = tableAppend st.table ts req) ∧
    (∀ st' req' cts', (try_schedule_request oracle st' req' cts').1 = false →
      oracle req'.alice_id req'.bob_id = none ∨
      oracle req'.alice_id req'.bob_id = some []) := by
  obtain ⟨h1, ts, h2⟩ := try_schedule_success_shape oracle st req cts route hor hne
  exact ⟨h1, ⟨ts, by rw [h2]⟩,
    fun st' req' cts' hf => (try_schedule_fail_shape oracle st' req' cts' hf).2⟩

/-- Witness for C10: a one-route oracle schedules the request from the
empty state. -/
theorem C10_try_schedule_total_witness :
    ((fun a b => if a = 0 ∧ b = 2 then some [0, 1, 2] else none : Oracle) 0 2
        = some [0, 1, 2] ∧ ([0, 1, 2] : List Nat) ≠ []) ∧
    ((try_schedule_request (fun a b => if a = 0 ∧ b = 2 then some [0, 1, 2] else none)
        ⟨[], [], 1⟩ ⟨0, 2, 5, 7, Protocol.acbqc, none, none⟩ 1).1 = true ∧
     (∃ ts, (try_schedule_request (fun a b => if a = 0 ∧ b = 2 then some [0, 1, 2] else none)
        ⟨[], [], 1⟩ ⟨0, 2, 5, 7, Protocol.acbqc, none, none⟩ 1).2.table
          = tableAppend [] ts ⟨0, 2, 5, 7, Protocol.acbqc, none, none⟩) ∧
     (∀ st' req' cts',
        (try_schedule_request (fun a b => if a = 0 ∧ b = 2 then some [0, 1, 2] else none)
          st' req' cts').1 = false →
        (fun a b => if a = 0 ∧ b = 2 then some [0, 1, 2] else none : Oracle)
            req'.alice_id req'.bob_id = none ∨
        (fun a b => if a = 0 ∧ b = 2 then some [0, 1, 2] else none : Oracle)
            req'.alice_id req'.bob_id = some [])) :=
  ⟨⟨by decide, by decide⟩,
   C10_try_schedule_total (fun a b => if a = 0 ∧ b = 2 then some [0, 1, 2] else none)
     ⟨[], [], 1⟩ ⟨0, 2, 5, 7, Protocol.acbqc, none, none⟩ 1 [0, 1, 2]
     (by decide) (by decide)⟩

/-- The priority comparator of `Controller.prioritize_requests`: Python
sorts ascending by the tuple `(num_qubits, -len(quantum_circuit.data))`,
i.e. fewer qubits first and, among equal qubit counts, more circuit
instructions first. -/
def keyLe (a b : Request) : Bool :=
  decide (a.num_qubits < b.num_qubits ∨
    (a.num_qubits = b.num_qubits ∧ b.qc_data_len ≤ a.qc_data_len))

/-- `Controller.prioritize_requests`: stable in-place sort of the pending
list (`list.sort` is stable; `mergeSort` is the stable sort of the
library). -/
def prioritize_requests (pending : List Request) : List Request :=
  pending.mergeSort keyLe

theorem keyLe_trans : ∀ (a b c : Request), keyLe a b → keyLe b c → keyLe a c := by
  intro a b c hab hbc
  simp only [keyLe, decide_eq_true_eq] at *
  omega

theorem keyLe_total : ∀ (a b : Request), keyLe a b || keyLe b a := by
  intro a b
  simp only [keyLe, Bool.or_eq_true, decide_eq_true_eq]
  omega

theorem tableFlatten_cons (e : Nat × List Request) (rest : Table) :
    tableFlatten (e :: rest) = e.2 ++ tableFlatten rest := by
  simp [tableFlatten]

/-- Appending a request to one slot of the table adds exactly that request
to the table's contents. -/
theorem tableFlatten_tableAppend (table : Table) (ts : Nat) (req : Request) :
    List.Perm (tableFlatten (tableAppend table ts req)) (tableFlatten table ++ [req]) := by
  induction table with
  | nil => simp [tableAppend, tableFlatten]
  | cons e rest ih =>
    by_cases h : e.1 = ts
    · simp only [tableAppend, h, if_true, tableFlatten_cons]
      rw [List.append_assoc, List.append_assoc]
      exact List.Perm.append_left e.2 List.perm_append_comm
    · simp only [tableAppend, h, if_false, tableFlatten_cons]
      rw [List.append_assoc]
      exact List.Perm.append_left e.2 ih

/-- The body of `Controller.process_requests`:
`while self.pending_requests and attempts < max_attempts`, with the
timeslot-0 nudge, head attempt, pop-and-reset on success and
advance-and-count on failure.  `fuel` bounds the number of iterations
(each iteration pops the head or increments `attempts` toward `maxA`, so
the loop terminates); `process_requests` supplies a provably sufficient
fuel.  The third component of the result is the list of requests the loop
attempted, in order, recorded so the theorems can name the request tried
first. -/
def processAux (oracle : Oracle) (maxA : Nat) :
    Nat → SchedSt → List Request → Nat → SchedSt × List Request × List Request
  | 0, st, pending, _ => (st, pending, [])
  | fuel + 1, st, pending, attempts =>
    match pending with
    | [] => (st, [], [])
    | req :: rest =>
      if maxA ≤ attempts then (st, req :: rest, [])
      else
        let st1 := if st.clock = 0 then { st with clock := st.clock + 1 } else st
        match try_schedule_request oracle st1 req st1.clock with
        | (true, st2) =>
          let rec2 := processAux oracle maxA fuel st2 rest 0
          (rec2.1, rec2.2.1, req :: rec2.2.2)
        | (false, st2) =>
          let rec2 := processAux oracle maxA fuel
            { st2 with clock := st2.clock + 1 } (req :: rest) (attempts + 1)
          (rec2.1, rec2.2.1, req :: rec2.2.2)

/-- `Controller.process_requests(max_attempts)`: sort the pending list,
then run the scheduling loop. -/
def process_requests (oracle : Oracle) (st : SchedSt) (pending : List Request)
    (maxA : Nat) : SchedSt × List Request × List Request :=
  processAux oracle maxA
    ((prioritize_requests pending).length * (maxA + 1) + maxA) st
    (prioritize_requests pending) 0

/-- `Controller.receive_request(request)`: append the request to the
pending list and run one scheduling pass (default `max_attempts = 1`). -/
def receive_request (oracle : Oracle) (st : SchedSt) (pending : List Request)
    (req : Request) : SchedSt × List Request × List Request :=
  process_requests oracle st (pending ++ [req]) 1

/-- The clock value after the loop's timeslot-0 nudge. -/
def fixClock (c : Nat) : Nat := if c = 0 then 1 else c

/-- A success of `try_schedule_request` leaves `clock` unchanged, adds the
request to the table's contents, and implies the oracle produced a truthy
route. -/
theorem try_schedule_true_shape (oracle : Oracle) (st st2 : SchedSt) (req : Request)
    (cts : Nat) (h : try_schedule_request oracle st req cts = (true, st2)) :
    st2.clock = st.clock ∧
    List.Perm (tableFlatten st2.table) (tableFlatten st.table ++ [req]) := by
  rcases hor : oracle req.alice_id req.bob_id with _ | route
  · rw [try_schedule_request, hor] at h
    simp at h
  · rcases hroute : route with _ | ⟨a, rest⟩
    · subst hroute
      rw [try_schedule_request, hor] at h
      simp at h
    · obtain ⟨h1, ts, h2⟩ := try_schedule_success_shape oracle st req cts route hor
        (by rw [hroute]; exact List.cons_ne_nil a rest)
      have hst2 : st2 = (try_schedule_request oracle st req cts).2 := by rw [h]
      rw [hst2, h2]
      exact ⟨rfl, tableFlatten_tableAppend st.table ts req⟩

/-- When the first iteration actually runs (`pending` non-empty and fuel
left), pre-nudging the clock does not change the loop's behaviour. -/
theorem processAux_fixClock (oracle : Oracle) (maxA fuel : Nat) (st : SchedSt)
    (req : Request) (rest : List Request) (attempts : Nat)
    (hatt : ¬ maxA ≤ attempts) :
    processAux oracle maxA (fuel + 1) st (req :: rest) attempts
      = processAux oracle maxA (fuel + 1) { st with clock := fixClock st.clock }
          (req :: rest) attempts := by
  by_cases h : st.clock = 0
  · simp [processAux, fixClock, h, hatt]
  · simp [processAux, fixClock, h, hatt]

/-- Behaviour of one `process_requests` pass with `max_attempts = 1`,
for entry states whose clock is already positive: the loop pops a prefix
of `k` schedulable requests, schedules each of them, and on the first
failure advances the clock once and halts. -/
theorem processLoop1_spec (oracle : Oracle) :
    ∀ (p : List Request) (st : SchedSt) (fuel : Nat),
      st.clock ≠ 0 → 2 * p.length + 1 ≤ fuel →
      ∃ k, k ≤ p.length ∧
        (processAux oracle 1 fuel st p 0).2.1 = p.drop k ∧
        List.Perm (tableFlatten (processAux oracle 1 fuel st p 0).1.table)
          (tableFlatten st.table ++ p.take k) ∧
        (processAux oracle 1 fuel st p 0).2.2 = p.take (min (k + 1) p.length) ∧
        (processAux oracle 1 fuel st p 0).1.clock
          = (if k = p.length then st.clock else st.clock + 1) := by
  intro p
  induction p with
  | nil =>
    intro st fuel hclk hfuel
    obtain ⟨f, rfl⟩ : ∃ f, fuel = f + 1 := ⟨fuel - 1, by omega⟩
    exact ⟨0, by simp [processAux, tableFlatten]⟩
  | cons req rest ih =>
    intro st fuel hclk hfuel
    obtain ⟨f, rfl⟩ : ∃ f, fuel = f + 1 := ⟨fuel - 1, by omega⟩
    simp only [List.length_cons] at hfuel
    have hguard : ¬ ((1 : Nat) ≤ 0) := by omega
    simp only [processAux]
    rw [if_neg hguard]
    simp only [if_neg hclk]
    rcases htry : try_schedule_request oracle st req st.clock with ⟨ok, st2⟩
    rcases ok with _ | _
    · -- failure: the loop advances the clock, counts the attempt, halts
      dsimp only
      have hst2 : st2 = st := by
        have hfs := try_schedule_fail_shape oracle st req st.clock
          (by rw [htry])
        rw [htry] at hfs
        exact hfs.1
      subst hst2
      obtain ⟨f', rfl⟩ : ∃ f', f = f' + 1 := ⟨f - 1, by omega⟩
      refine ⟨0, by omega, ?_⟩
      simp only [processAux]
      rw [if_pos (by omega : (1 : Nat) ≤ 0 + 1)]
      refine ⟨rfl, by simp, ?_, ?_⟩
      · have hm : min (0 + 1) (rest.length + 1) = 1 := by omega
        simp [hm]
      · have hne0 : ¬ ((0 : Nat) = rest.length + 1) := by omega
        simp [hne0]
    · -- success: pop the head, reset the counter, keep draining
      dsimp only
      have hshape := try_schedule_true_shape oracle st st2 req st.clock htry
      have hclk2 : st2.clock ≠ 0 := by rw [hshape.1]; exact hclk
      obtain ⟨k, hk, hpend, hflat, htr, hclock⟩ := ih st2 f hclk2 (by omega)
      refine ⟨k + 1, by simp only [List.length_cons]; omega, ?_, ?_, ?_, ?_⟩
      · simpa using hpend
      · have h2 : List.Perm (tableFlatten st2.table ++ rest.take k)
            ((tableFlatten st.table ++ [req]) ++ rest.take k) :=
          List.Perm.append_right _ hshape.2
        have h3 : (tableFlatten st.table ++ [req]) ++ rest.take k
            = tableFlatten st.table ++ (req :: rest).take (k + 1) := by
          rw [List.append_assoc]; rfl
        exact h3 ▸ (hflat.trans h2)
      · have hmin : min (k + 1 + 1) (rest.length + 1) = min (k + 1) rest.length + 1 := by
          omega
        simp only [List.length_cons, hmin, List.take_succ_cons, htr]
      · rw [hshape.1] at hclock
        by_cases hkl : k = rest.length
        · simp [List.length_cons, hkl, hclock]
        · have hkl2 : ¬ (k + 1 = rest.length + 1) := by omega
          simp [List.length_cons, hkl, hkl2, hclock]

theorem fixClock_ne_zero (c : Nat) : fixClock c ≠ 0 := by
  unfold fixClock
  split <;> omega

/-- **C3.** With the default `max_attempts = 1`, one `process_requests`
call behaves as: a clock at 0 is advanced once; then, in priority order,
every placed request is removed from pending (contention counter reset to
0, so successes drain without limit); at the first request that cannot be
placed, the clock advances exactly one more timeslot and the call halts,
leaving that request and all later pending requests unscheduled.  One
call therefore schedules a prefix of the prioritized pending queue and
advances the clock exactly once past the first failure. -/
theorem C3_process_requests_default (oracle : Oracle) (st : SchedSt)
    (pending : List Request) (hne : pending ≠ []) :
    ∃ k, k ≤ (prioritize_requests pending).length ∧
      (process_requests oracle st pending 1).2.1
        = (prioritize_requests pending).drop k ∧
      List.Perm (tableFlatten (process_requests oracle st pending 1).1.table)
        (tableFlatten st.table ++ (prioritize_requests pending).take k) ∧
      (process_requests oracle st pending 1).2.2
        = (prioritize_requests pending).take
            (min (k + 1) (prioritize_requests pending).length) ∧
      (process_requests oracle st pending 1).1.clock
        = (if k = (prioritize_requests pending).length then fixClock st.clock
           else fixClock st.clock + 1) := by
  have hlen : (prioritize_requests pending).length = pending.length := by
    simp [prioritize_requests]
  have hpne : prioritize_requests pending ≠ [] := by
    intro h0
    rw [h0] at hlen
    exact hne (List.length_eq_zero.mp hlen.symm)
  obtain ⟨req, rest, hpr⟩ : ∃ req rest, prioritize_requests pending = req :: rest := by
    rcases hp : prioritize_requests pending with _ | ⟨req, rest⟩
    · exact absurd hp hpne
    · exact ⟨req, rest, rfl⟩
  have hfix : process_requests oracle st pending 1
      = processAux oracle 1 ((prioritize_requests pending).length * (1 + 1) + 1)
          { st with clock := fixClock st.clock } (prioritize_requests pending) 0 := by
    rw [process_requests, hpr]
    exact processAux_fixClock oracle 1 ((req :: rest).length * (1 + 1)) st req rest 0
      (by omega)
  obtain ⟨k, hk, h1, h2, h3, h4⟩ := processLoop1_spec oracle (prioritize_requests pending)
    { st with clock := fixClock st.clock }
    ((prioritize_requests pending).length * (1 + 1) + 1)
    (fixClock_ne_zero st.clock) (by omega)
  rw [hfix]
  exact ⟨k, hk, h1, h2, h3, h4⟩

/-- Concrete routing oracle used by witnesses and counterexamples: two
fixed routes, `(0, 2) ↦ [0, 1, 2]` and `(3, 4) ↦ [3, 1, 4]`. -/
def oracle2 : Oracle := fun a b =>
  if a = 0 ∧ b = 2 then some [0, 1, 2]
  else if a = 3 ∧ b = 4 then some [3, 1, 4]
  else none

/-- A concrete request from node 0 to node 2 (5 qubits, 10 circuit
instructions). -/
def reqA : Request := ⟨0, 2, 5, 10, Protocol.acbqc, none, none⟩

/-- A concrete request from node 3 to node 4 (3 qubits, 7 circuit
instructions). -/
def reqB : Request := ⟨3, 4, 3, 7, Protocol.bfkbqc, none, none⟩

/-- Witness for C3: one pending request against the two-route oracle. -/
theorem C3_process_requests_default_witness :
    ([reqA] ≠ ([] : List Request)) ∧
    (∃ k, k ≤ (prioritize_requests [reqA]).length ∧
      (process_requests oracle2 ⟨[], [], 0⟩ [reqA] 1).2.1
        = (prioritize_requests [reqA]).drop k ∧
      List.Perm (tableFlatten (process_requests oracle2 ⟨[], [], 0⟩ [reqA] 1).1.table)
        (tableFlatten ([] : Table) ++ (prioritize_requests [reqA]).take k) ∧
      (process_requests oracle2 ⟨[], [], 0⟩ [reqA] 1).2.2
        = (prioritize_requests [reqA]).take
            (min (k + 1) (prioritize_requests [reqA]).length) ∧
      (process_requests oracle2 ⟨[], [], 0⟩ [reqA] 1).1.clock
        = (if k = (prioritize_requests [reqA]).length then fixClock 0
           else fixClock 0 + 1)) :=
  ⟨by decide, C3_process_requests_default oracle2 ⟨[], [], 0⟩ [reqA] (by decide)⟩

theorem prioritize_head_min (pending : List Request) (req : Request)
    (rest : List Request) (h : prioritize_requests pending = req :: rest) :
    req ∈ pending ∧ ∀ x ∈ pending, keyLe req x = true := by
  have hs := List.sorted_mergeSort keyLe_trans keyLe_total pending
  rw [prioritize_requests] at h
  constructor
  · have hm : req ∈ pending.mergeSort keyLe := by
      rw [h]; exact List.mem_cons_self _ _
    exact List.mem_mergeSort.mp hm
  · intro x hx
    have hxm : x ∈ pending.mergeSort keyLe := List.mem_mergeSort.mpr hx
    rw [h] at hxm hs
    rcases List.mem_cons.mp hxm with rfl | hxr
    · simp [keyLe]
    · exact List.rel_of_pairwise_cons hs hxr

/-- **C5.** For every non-empty pending set, the request that
`process_requests` attempts first has the minimum
`(num_qubits, -circuit_instruction_count)` key among all pending
requests, and `prioritize_requests` is stable: requests with equal keys
keep their original relative submission order. -/
theorem C5_priority_order (oracle : Oracle) (st : SchedSt)
    (pending : List Request) (hne : pending ≠ []) :
    (∃ r tr, (process_requests oracle st pending 1).2.2 = r :: tr ∧
      r ∈ pending ∧ ∀ x ∈ pending, keyLe r x = true) ∧
    (∀ a b : Request, a.num_qubits = b.num_qubits →
      a.qc_data_len = b.qc_data_len →
      List.Sublist [a, b] pending →
      List.Sublist [a, b] (prioritize_requests pending)) := by
  constructor
  · have hlen : (prioritize_requests pending).length = pending.length := by
      simp [prioritize_requests]
    have hpne : prioritize_requests pending ≠ [] := by
      intro h0
      rw [h0] at hlen
      exact hne (List.length_eq_zero.mp hlen.symm)
    obtain ⟨req, rest, hpr⟩ : ∃ req rest, prioritize_requests pending = req :: rest := by
      rcases hp : prioritize_requests pending with _ | ⟨req, rest⟩
      · exact absurd hp hpne
      · exact ⟨req, rest, rfl⟩
    have hfix : process_requests oracle st pending 1
        = processAux oracle 1 ((prioritize_requests pending).length * (1 + 1) + 1)
            { st with clock := fixClock st.clock } (prioritize_requests pending) 0 := by
      rw [process_requests, hpr]
      exact processAux_fixClock oracle 1 ((req :: rest).length * (1 + 1)) st req rest 0
        (by omega)
    obtain ⟨k, hk, h1, h2, h3, h4⟩ := processLoop1_spec oracle (prioritize_requests pending)
      { st with clock := fixClock st.clock }
      ((prioritize_requests pending).length * (1 + 1) + 1)
      (fixClock_ne_zero st.clock) (by omega)
    obtain ⟨hmem, hmin⟩ := prioritize_head_min pending req rest hpr
    refine ⟨req, rest.take (min (k + 1) (rest.length + 1) - 1), ?_, hmem, hmin⟩
    rw [hfix, h3, hpr]
    have hm : min (k + 1) ((req :: rest).length)
        = (min (k + 1) (rest.length + 1) - 1) + 1 := by
      simp only [List.length_cons]
      omega
    rw [hm, List.take_succ_cons]
  · intro a b hq hl hsub
    have hab : keyLe a b = true := by
      simp [keyLe]
      omega
    rw [prioritize_requests]
    exact List.pair_sublist_mergeSort keyLe_trans keyLe_total hab hsub

/-- Witness for C5: with two pending requests, the 3-qubit request `reqB`
is attempted first. -/
theorem C5_priority_order_witness :
    ([reqA, reqB] ≠ ([] : List Request)) ∧
    ((∃ r tr, (process_requests oracle2 ⟨[], [], 0⟩ [reqA, reqB] 1).2.2 = r :: tr ∧
      r ∈ [reqA, reqB] ∧ ∀ x ∈ [reqA, reqB], keyLe r x = true) ∧
    (∀ a b : Request, a.num_qubits = b.num_qubits →
      a.qc_data_len = b.qc_data_len →
      List.Sublist [a, b] [reqA, reqB] →
      List.Sublist [a, b] (prioritize_requests [reqA, reqB]))) :=
  ⟨by decide, C5_priority_order oracle2 ⟨[], [], 0⟩ [reqA, reqB] (by decide)⟩

/-- The strictly interior nodes of a route: every node except the two
endpoints. -/
def interNodes (route : List Nat) : List Nat := route.dropLast.drop 1

/-- **C1 counterexample.**  The oracle routes of `reqA` and `reqB` are
`[0, 1, 2]` and `[3, 1, 4]`, which share the intermediate node `1` (under
any reading of "intermediate"), yet the scheduler places both requests
into timeslot 1: the first `receive_request` schedules `reqA` at slot 1,
and the second one, after `share_timeslot` rejects sharing, falls back to
`find_next_available_timeslot`, which only checks *link* reservations —
the two routes have no common link — and lands in slot 1 as well.  This
refutes C1's claim that two requests whose routes share an intermediate
node are never placed into the same timeslot. -/
theorem C1_sharing_counterexample :
    oracle2 reqA.alice_id reqA.bob_id = some [0, 1, 2] ∧
    oracle2 reqB.alice_id reqB.bob_id = some [3, 1, 4] ∧
    ((1 : Nat) ∈ interNodes [0, 1, 2] ∧ (1 : Nat) ∈ interNodes [3, 1, 4]) ∧
    reqA ≠ reqB ∧
    (receive_request oracle2 ⟨[], [], 0⟩ [] reqA).1
      = ⟨[(1, [reqA])], [((0, 1), 1), ((1, 2), 1)], 1⟩ ∧
    (receive_request oracle2 ⟨[], [], 0⟩ [] reqA).2.1 = [] ∧
    tableGetD (receive_request oracle2
        ⟨[(1, [reqA])], [((0, 1), 1), ((1, 2), 1)], 1⟩ [] reqB).1.table 1
      = [reqA, reqB] := by
  have e1 : receive_request oracle2 ⟨[], [], 0⟩ [] reqA
      = (⟨[(1, [reqA])], [((0, 1), 1), ((1, 2), 1)], 1⟩, [], [reqA]) := by
    rw [receive_request, process_requests,
      show prioritize_requests ([] ++ [reqA]) = [reqA] from by
        simp [prioritize_requests]]
    decide
  have e2 : receive_request oracle2
      ⟨[(1, [reqA])], [((0, 1), 1), ((1, 2), 1)], 1⟩ [] reqB
      = (⟨[(1, [reqA, reqB])],
          [((0, 1), 1), ((1, 2), 1), ((3, 1), 1), ((1, 4), 1)], 1⟩, [], [reqB]) := by
    rw [receive_request, process_requests,
      show prioritize_requests ([] ++ [reqB]) = [reqB] from by
        simp [prioritize_requests]]
    decide
  refine ⟨rfl, rfl, by decide, by decide, ?_, ?_, ?_⟩
  · rw [e1]
  · rw [e1]
  · rw [e2]
    decide

/-- **C1 (amended).**  The share path is safe: when `share_timeslot`
admits a route into a timeslot, that route shares no node outside its
terminal node (in particular no intermediate node) with any route already
recomputed for that timeslot; and conversely, a request whose route has no
such overlap with any request of the current timeslot is placed into that
very timeslot.  The original claim's "never in the same timeslot" fails
for the fallback path, which checks only link reservations (see the
counterexample). -/
theorem C1_amended_share_path (oracle : Oracle) (st : SchedSt) (req : Request)
    (cts : Nat) (route : List Nat) :
    (share_timeslot oracle st.table route cts = true →
      ∀ req' ∈ tableGetD st.table cts, ∀ er,
        oracle req'.alice_id req'.bob_id = some er →
        ∀ x ∈ route.dropLast, x ∉ er.dropLast) ∧
    (oracle req.alice_id req.bob_id = some route → route ≠ [] →
      tableHasKey st.table cts = true →
      (∀ req' ∈ tableGetD st.table cts, ∀ x ∈ route.dropLast,
        x ∉ ((oracle req'.alice_id req'.bob_id).getD []).dropLast) →
      try_schedule_request oracle st req cts
        = (true, { st with occ := reserve_route st.occ route cts,
                           table := tableAppend st.table cts req })) := by
  constructor
  · intro hsh req' hreq' er her x hx
    rw [share_timeslot] at hsh
    rcases htg : tableGet st.table cts with _ | reqs
    · rw [tableGetD, htg] at hreq'
      simp at hreq'
    · rw [htg] at hsh
      rw [tableGetD, htg] at hreq'
      simp only [Option.getD_some] at hreq'
      have hall := List.all_eq_true.mp hsh req' (List.mem_reverse.mpr hreq')
      simp only [Bool.not_eq_true'] at hall
      have hany := List.any_eq_false.mp hall x hx
      rw [her] at hany
      simp only [Option.getD_some] at hany
      intro hmem
      exact hany (List.elem_iff.mpr hmem)
  · intro hor hne hkey hdisj
    have hsh : share_timeslot oracle st.table route cts = true := by
      rw [share_timeslot]
      rcases htg : tableGet st.table cts with _ | reqs
      · rfl
      · apply List.all_eq_true.mpr
        intro req' hreq'
        simp only [Bool.not_eq_true']
        apply List.any_eq_false.mpr
        intro x hx
        have hmem' : req' ∈ tableGetD st.table cts := by
          rw [tableGetD, htg]
          exact List.mem_reverse.mp hreq'
        have hnm := hdisj req' hmem' x hx
        intro hc
        exact hnm (List.elem_iff.mp hc)
    simp only [try_schedule_request, hor]
    rw [if_neg (by simpa [List.isEmpty_iff] using hne)]
    rw [if_pos (by simp [hkey, hsh])]

/-- Auxiliary oracle for the C1 witness: `(0, 2) ↦ [0, 1, 2]` and
`(2, 5) ↦ [2, 5]`; the two routes share only node `2`, the terminal node
of the first route, so `route[:-1]` overlap is empty. -/
def oracleW : Oracle := fun a b =>
  if a = 0 ∧ b = 2 then some [0, 1, 2]
  else if a = 2 ∧ b = 5 then some [2, 5]
  else none

/-- A concrete request from node 2 to node 5. -/
def reqC : Request := ⟨2, 5, 4, 4, Protocol.qkde91, none, none⟩

/-- Witness for the amended C1: with `reqA` (route `[0, 1, 2]`) already in
slot 1, the overlap-free route `[2, 5]` is admitted by the share path into
the same slot 1. -/
theorem C1_amended_share_path_witness :
    (share_timeslot oracleW [(1, [reqA])] [2, 5] 1 = true ∧
     oracleW reqC.alice_id reqC.bob_id = some [2, 5] ∧
     ([2, 5] : List Nat) ≠ [] ∧
     tableHasKey [(1, [reqA])] 1 = true ∧
     (∀ req' ∈ tableGetD [(1, [reqA])] 1, ∀ x ∈ ([2, 5] : List Nat).dropLast,
       x ∉ ((oracleW req'.alice_id req'.bob_id).getD []).dropLast)) ∧
    ((∀ req' ∈ tableGetD [(1, [reqA])] 1, ∀ er,
        oracleW req'.alice_id req'.bob_id = some er →
        ∀ x ∈ ([2, 5] : List Nat).dropLast, x ∉ er.dropLast) ∧
     try_schedule_request oracleW ⟨[(1, [reqA])], [], 1⟩ reqC 1
       = (true, { (⟨[(1, [reqA])], [], 1⟩ : SchedSt) with
                    occ := reserve_route [] [2, 5] 1,
                    table := tableAppend [(1, [reqA])] 1 reqC })) :=
  ⟨⟨by decide, by decide, by decide, by decide, by decide⟩,
   ⟨(C1_amended_share_path oracleW ⟨[(1, [reqA])], [], 1⟩ reqC 1 [2, 5]).1
      (by decide),
    (C1_amended_share_path oracleW ⟨[(1, [reqA])], [], 1⟩ reqC 1 [2, 5]).2
      (by decide) (by decide) (by decide) (by decide)⟩⟩

/-- One entry of `Controller.failed_requests`, as built by
`record_failed_request`: a snapshot of the request and the value of
`request.get('slice_path', ...)`.  The `reason` field is the constant
default message in every dispatch-path call (`record_failed_request` is
always called there without a reason), so it carries no information and is
omitted. -/
structure FailedRec where
  req : Request
  route : Option (List Nat)
deriving DecidableEq, Repr

/-- `Controller.record_failed_request(request)`: append a failure entry. -/
def record_failed_request (failed : List FailedRec) (req : Request) : List FailedRec :=
  failed ++ [⟨req, req.slice_path⟩]

/-- The controller fields touched by the dispatch loop
(`send_scheduled_requests` / `execute_scheduled_requests` /
`execute_request_one`). -/
structure DispSt where
  table : Table
  occ : Occ
  executed : List (Request × Nat)
  failed : List FailedRec
deriving DecidableEq, Repr

/-- `Controller.execute_request_one(request)`: re-derive the route via the
oracle; if truthy, run the external `Network.execute_request` (the
parameter `execFn`); on success release the route and return `True`; on
execution failure record the failure, release the route, and return
`False`; on a falsy route record the failure (no release) and return
`False`. -/
def execute_request_one (oracle : Oracle) (execFn : Request → Bool)
    (st : DispSt) (req : Request) : Bool × DispSt :=
  match oracle req.alice_id req.bob_id with
  | some route =>
    if route.isEmpty then
      (false, { st with failed := record_failed_request st.failed req })
    else if execFn req then
      (true, { st with occ := release_route st.occ route })
    else
      (false, { st with failed := record_failed_request st.failed req,
                        occ := release_route st.occ route })
  | none => (false, { st with failed := record_failed_request st.failed req })

/-- The body of the `for request in self.scheduled_requests[timeslot]`
loop of `execute_scheduled_requests`: run one request; on success append
`(request, timeslot)` to the executed history. -/
def execStep (oracle : Oracle) (execFn : Request → Bool) (ts : Nat)
    (acc : DispSt) (req : Request) : DispSt :=
  let r := execute_request_one oracle execFn acc req
  if r.1 then { r.2 with executed := r.2.executed ++ [(req, ts)] } else r.2

/-- `Controller.execute_scheduled_requests(timeslot)`: run each request of
the slot in order, then delete the slot from the table. -/
def execute_scheduled_requests (oracle : Oracle) (execFn : Request → Bool)
    (st : DispSt) (ts : Nat) : DispSt :=
  match tableGet st.table ts with
  | none => st
  | some reqs =>
    let st2 := reqs.foldl (execStep oracle execFn ts) st
    { st2 with table := tableErase st2.table ts }

/-- The keys of the schedule table, in insertion order. -/
def tableKeys (table : Table) : List Nat := table.map (fun e => e.1)

/-- `sorted(self.scheduled_requests.keys())`. -/
def sortedKeys (table : Table) : List Nat :=
  (tableKeys table).mergeSort (fun a b => decide (a ≤ b))

/-- `Controller.send_scheduled_requests()`: execute every scheduled
timeslot in ascending key order.  (Between slots the source calls
`Network.restart_network()`, which refills EPR pairs and host qubits; it
touches none of the controller state modelled here, so it is a no-op in
this embedding.) -/
def send_scheduled_requests (oracle : Oracle) (execFn : Request → Bool)
    (st : DispSt) : DispSt :=
  (sortedKeys st.table).foldl
    (fun acc ts => execute_scheduled_requests oracle execFn acc ts) st

theorem mem_tableGetD_mem_flatten (table : Table) (ts : Nat) (req : Request)
    (h : req ∈ tableGetD table ts) : req ∈ tableFlatten table := by
  induction table with
  | nil => simp [tableGetD, tableGet] at h
  | cons e rest ih =>
    rw [tableFlatten_cons]
    by_cases he : e.1 = ts
    · rw [tableGetD, tableGet, if_pos he] at h
      simp only [Option.getD_some] at h
      exact List.mem_append_left _ h
    · rw [tableGetD, tableGet, if_neg he] at h
      exact List.mem_append_right _ (ih h)

theorem mem_tableGetD_tableAppend_self (table : Table) (ts : Nat) (req : Request) :
    req ∈ tableGetD (tableAppend table ts req) ts := by
  induction table with
  | nil => simp [tableAppend, tableGetD, tableGet]
  | cons e rest ih =>
    by_cases he : e.1 = ts
    · rw [tableAppend, if_pos he, tableGetD, tableGet, if_pos he]
      simp
    · rw [tableAppend, if_neg he, tableGetD, tableGet, if_neg he]
      exact ih

theorem tableGet_tableAppend_other (table : Table) (ts ts' : Nat) (req : Request)
    (h : ts' ≠ ts) :
    tableGet (tableAppend table ts req) ts' = tableGet table ts' := by
  induction table with
  | nil =>
    have h1 : ¬ (ts = ts') := fun hh => h hh.symm
    simp [tableAppend, tableGet, h1]
  | cons e rest ih =>
    have h1 : ¬ (ts = ts') := fun hh => h hh.symm
    by_cases he : e.1 = ts
    · have h2 : ¬ e.1 = ts' := by rw [he]; exact fun hh => h hh.symm
      simp [tableAppend, he, tableGet, h2, h1]
    · by_cases he' : e.1 = ts'
      · simp [tableAppend, he, tableGet, he', h, h1]
      · simp [tableAppend, he, tableGet, he', ih, h, h1]

theorem tableGet_tableErase (table : Table) (ts ts' : Nat) :
    tableGet (tableErase table ts) ts'
      = if ts' = ts then none else tableGet table ts' := by
  induction table with
  | nil => by_cases h : ts' = ts <;> simp [tableErase, tableGet, h]
  | cons e rest ih =>
    by_cases he : e.1 = ts
    · by_cases h : ts' = ts
      · subst h
        simp [tableErase, he, ih]
      · have h1 : ¬ (ts = ts') := fun hh => h hh.symm
        have h2 : ¬ e.1 = ts' := by rw [he]; exact fun hh => h hh.symm
        simp [tableErase, he, ih, h, tableGet, h2, h1]
    · by_cases he' : e.1 = ts'
      · have h3 : ¬ ts' = ts := fun hh => he (he'.trans hh)
        simp [tableErase, he, tableGet, he', h3]
      · simp [tableErase, he, tableGet, he', ih]

theorem tableErase_absent (table : Table) (ts : Nat)
    (h : tableGet table ts = none) : tableErase table ts = table := by
  induction table with
  | nil => rfl
  | cons e rest ih =>
    rw [tableGet] at h
    by_cases he : e.1 = ts
    · rw [if_pos he] at h
      exact absurd h (by simp)
    · rw [if_neg he] at h
      rw [tableErase, if_neg he, ih h]

theorem mem_tableKeys_tableErase (table : Table) (ts k : Nat)
    (h : k ∈ tableKeys (tableErase table ts)) :
    k ∈ tableKeys table ∧ k ≠ ts := by
  induction table with
  | nil => simp [tableErase, tableKeys] at h
  | cons e rest ih =>
    by_cases he : e.1 = ts
    · rw [tableErase, if_pos he] at h
      obtain ⟨h1, h2⟩ := ih h
      exact ⟨by simp [tableKeys] at h1 ⊢; exact Or.inr h1, h2⟩
    · rw [tableErase, if_neg he] at h
      rw [tableKeys, List.map_cons] at h
      rcases List.mem_cons.mp h with rfl | h'
      · exact ⟨by simp [tableKeys], he⟩
      · obtain ⟨h1, h2⟩ := ih h'
        exact ⟨by simp [tableKeys] at h1 ⊢; exact Or.inr h1, h2⟩

theorem execute_request_one_shape (oracle : Oracle) (execFn : Request → Bool)
    (st : DispSt) (req : Request) :
    (execute_request_one oracle execFn st req).2.table = st.table ∧
    (execute_request_one oracle execFn st req).2.executed = st.executed ∧
    (∀ fr ∈ st.failed, fr ∈ (execute_request_one oracle execFn st req).2.failed) ∧
    ((execute_request_one oracle execFn st req).1 = false →
      (⟨req, req.slice_path⟩ : FailedRec)
        ∈ (execute_request_one oracle execFn st req).2.failed) := by
  rcases hor : oracle req.alice_id req.bob_id with _ | route
  · simp [execute_request_one, hor, record_failed_request]
    exact fun fr hf => Or.inl hf
  · by_cases hre : route.isEmpty
    · simp [execute_request_one, hor, hre, record_failed_request]
      exact fun fr hf => Or.inl hf
    · by_cases hex : execFn req
      · simp [execute_request_one, hor, hre, hex]
      · simp [execute_request_one, hor, hre, hex, record_failed_request]
        exact fun fr hf => Or.inl hf

theorem execStep_shape (oracle : Oracle) (execFn : Request → Bool) (ts : Nat)
    (st : DispSt) (req : Request) :
    (execStep oracle execFn ts st req).table = st.table ∧
    (∀ e ∈ st.executed, e ∈ (execStep oracle execFn ts st req).executed) ∧
    (∀ fr ∈ st.failed, fr ∈ (execStep oracle execFn ts st req).failed) ∧
    ((req, ts) ∈ (execStep oracle execFn ts st req).executed ∨
      ∃ fr ∈ (execStep oracle execFn ts st req).failed, fr.req = req) := by
  obtain ⟨ht, hex, hfail, hfl⟩ := execute_request_one_shape oracle execFn st req
  rw [execStep]
  rcases hr : execute_request_one oracle execFn st req with ⟨ok, st2⟩
  rw [hr] at ht hex hfail hfl
  rcases ok with _ | _
  · dsimp only
    exact ⟨ht, fun e he => hex ▸ he, hfail,
      Or.inr ⟨⟨req, req.slice_path⟩, hfl rfl, rfl⟩⟩
  · dsimp only
    refine ⟨ht, fun e he => List.mem_append_left _ (hex ▸ he), hfail, Or.inl ?_⟩
    exact List.mem_append_right _ (List.mem_singleton.mpr rfl)

theorem execStep_foldl_spec (oracle : Oracle) (execFn : Request → Bool) (ts : Nat) :
    ∀ (reqs : List Request) (st : DispSt),
      (reqs.foldl (execStep oracle execFn ts) st).table = st.table ∧
      (∀ e ∈ st.executed, e ∈ (reqs.foldl (execStep oracle execFn ts) st).executed) ∧
      (∀ fr ∈ st.failed, fr ∈ (reqs.foldl (execStep oracle execFn ts) st).failed) ∧
      (∀ req ∈ reqs,
        (req, ts) ∈ (reqs.foldl (execStep oracle execFn ts) st).executed ∨
        ∃ fr ∈ (reqs.foldl (execStep oracle execFn ts) st).failed, fr.req = req) := by
  intro reqs
  induction reqs with
  | nil => exact fun st => ⟨rfl, fun e he => he, fun f hf => hf, by simp⟩
  | cons req rest ih =>
    intro st
    obtain ⟨ht1, hex1, hfail1, hterm1⟩ := execStep_shape oracle execFn ts st req
    obtain ⟨ht2, hex2, hfail2, hterm2⟩ := ih (execStep oracle execFn ts st req)
    rw [List.foldl_cons]
    refine ⟨ht2.trans ht1, fun e he => hex2 e (hex1 e he),
      fun f hf => hfail2 f (hfail1 f hf), ?_⟩
    intro r hr
    rcases List.mem_cons.mp hr with rfl | hr'
    · rcases hterm1 with h | ⟨fr, hfr, hfrq⟩
      · exact Or.inl (hex2 _ h)
      · exact Or.inr ⟨fr, hfail2 fr hfr, hfrq⟩
    · exact hterm2 r hr'

theorem execute_scheduled_requests_spec (oracle : Oracle) (execFn : Request → Bool)
    (st : DispSt) (ts : Nat) :
    (execute_scheduled_requests oracle execFn st ts).table = tableErase st.table ts ∧
    (∀ e ∈ st.executed, e ∈ (execute_scheduled_requests oracle execFn st ts).executed) ∧
    (∀ fr ∈ st.failed, fr ∈ (execute_scheduled_requests oracle execFn st ts).failed) ∧
    (∀ reqs, tableGet st.table ts = some reqs → ∀ req ∈ reqs,
      (req, ts) ∈ (execute_scheduled_requests oracle execFn st ts).executed ∨
      ∃ fr ∈ (execute_scheduled_requests oracle execFn st ts).failed, fr.req = req) := by
  rcases htg : tableGet st.table ts with _ | reqs
  · rw [execute_scheduled_requests, htg]
    refine ⟨(tableErase_absent st.table ts htg).symm, fun e he => he,
      fun f hf => hf, ?_⟩
    intro reqs h
    simp at h
  · rw [execute_scheduled_requests, htg]
    obtain ⟨ht, hex, hfail, hterm⟩ := execStep_foldl_spec oracle execFn ts reqs st
    dsimp only
    refine ⟨by rw [ht], hex, hfail, ?_⟩
    intro reqs' h req hreq
    injection h with h
    subst h
    exact hterm req hreq

theorem send_fold_spec (oracle : Oracle) (execFn : Request → Bool) :
    ∀ (keys : List Nat) (st : DispSt),
      ((keys.foldl (fun acc ts => execute_scheduled_requests oracle execFn acc ts) st).table
        = keys.foldl tableErase st.table) ∧
      (∀ e ∈ st.executed,
        e ∈ (keys.foldl (fun acc ts => execute_scheduled_requests oracle execFn acc ts) st).executed) ∧
      (∀ fr ∈ st.failed,
        fr ∈ (keys.foldl (fun acc ts => execute_scheduled_requests oracle execFn acc ts) st).failed) ∧
      (∀ ts ∈ keys, ∀ reqs, tableGet st.table ts = some reqs → ∀ req ∈ reqs,
        (req, ts) ∈ (keys.foldl (fun acc ts => execute_scheduled_requests oracle execFn acc ts) st).executed ∨
        ∃ fr ∈ (keys.foldl (fun acc ts => execute_scheduled_requests oracle execFn acc ts) st).failed,
          fr.req = req) := by
  intro keys
  induction keys with
  | nil => exact fun st => ⟨rfl, fun e he => he, fun f hf => hf, by simp⟩
  | cons t rest ih =>
    intro st
    obtain ⟨ht1, hex1, hfail1, hterm1⟩ := execute_scheduled_requests_spec oracle execFn st t
    obtain ⟨ht2, hex2, hfail2, hterm2⟩ := ih (execute_scheduled_requests oracle execFn st t)
    rw [List.foldl_cons]
    refine ⟨by rw [ht2, ht1, List.foldl_cons], fun e he => hex2 e (hex1 e he),
      fun f hf => hfail2 f (hfail1 f hf), ?_⟩
    intro ts hts reqs hreqs req hreq
    by_cases hc : ts = t
    · subst hc
      rcases hterm1 reqs hreqs req hreq with h | ⟨fr, hfr, hfrq⟩
      · exact Or.inl (hex2 _ h)
      · exact Or.inr ⟨fr, hfail2 fr hfr, hfrq⟩
    · rcases List.mem_cons.mp hts with rfl | hts'
      · exact absurd rfl hc
      · have hget : tableGet (execute_scheduled_requests oracle execFn st t).table ts
            = some reqs := by
          rw [ht1, tableGet_tableErase, if_neg hc]
          exact hreqs
        exact hterm2 ts hts' reqs hget req hreq

theorem table_eraseAll_of_cover :
    ∀ (keys : List Nat) (table : Table), (∀ k ∈ tableKeys table, k ∈ keys) →
      keys.foldl tableErase table = [] := by
  intro keys
  induction keys with
  | nil =>
    intro table hcov
    rcases table with _ | ⟨e, rest⟩
    · rfl
    · exact absurd (hcov e.1 (by simp [tableKeys])) (by simp)
  | cons t rest ih =>
    intro table hcov
    rw [List.foldl_cons]
    apply ih
    intro k hk
    obtain ⟨h1, h2⟩ := mem_tableKeys_tableErase table t k hk
    rcases List.mem_cons.mp (hcov k h1) with rfl | h
    · exact absurd rfl h2
    · exact h

theorem tableGet_some_mem_keys (table : Table) (ts : Nat) (reqs : List Request)
    (h : tableGet table ts = some reqs) : ts ∈ tableKeys table := by
  induction table with
  | nil => cases h
  | cons e rest ih =>
    rw [tableGet] at h
    by_cases he : e.1 = ts
    · rw [tableKeys, List.map_cons, he]
      exact List.mem_cons_self _ _
    · rw [if_neg he] at h
      exact List.mem_cons_of_mem _ (ih h)

/-- **C4.** Every request placed into the ScheduleTable appears in exactly
one timeslot's list, and after `send_scheduled_requests()` completes, the
ScheduleTable is empty and every request that was scheduled has a terminal
status: it appears in the executed history (paired with its timeslot) or
in the failed records — including requests whose route could not be
re-derived at dispatch time, which `execute_request_one` records as
failures. -/
theorem C4_round_trip (oracle : Oracle) (execFn : Request → Bool) :
    (∀ (st : SchedSt) (req : Request) (cts : Nat) (route : List Nat),
      oracle req.alice_id req.bob_id = some route → route ≠ [] →
      req ∉ tableFlatten st.table →
      ∃ ts, req ∈ tableGetD (try_schedule_request oracle st req cts).2.table ts ∧
        ∀ ts', req ∈ tableGetD (try_schedule_request oracle st req cts).2.table ts' →
          ts' = ts) ∧
    (∀ st : DispSt,
      (send_scheduled_requests oracle execFn st).table = [] ∧
      ∀ ts reqs, tableGet st.table ts = some reqs → ∀ req ∈ reqs,
        (req, ts) ∈ (send_scheduled_requests oracle execFn st).executed ∨
        ∃ fr ∈ (send_scheduled_requests oracle execFn st).failed, fr.req = req) := by
  constructor
  · intro st req cts route hor hne hfresh
    obtain ⟨h1, ts, h2⟩ := try_schedule_success_shape oracle st req cts route hor hne
    rw [h2]
    refine ⟨ts, mem_tableGetD_tableAppend_self st.table ts req, ?_⟩
    intro ts' hmem
    by_contra hne'
    rw [tableGetD, tableGet_tableAppend_other st.table ts ts' req hne'] at hmem
    exact hfresh (mem_tableGetD_mem_flatten st.table ts' req hmem)
  · intro st
    obtain ⟨ht, hex, hfail, hterm⟩ := send_fold_spec oracle execFn (sortedKeys st.table) st
    rw [send_scheduled_requests]
    constructor
    · rw [ht]
      apply table_eraseAll_of_cover
      intro k hk
      rw [sortedKeys]
      exact List.mem_mergeSort.mpr hk
    · intro ts reqs hreqs req hreq
      have hts : ts ∈ sortedKeys st.table := by
        rw [sortedKeys]
        exact List.mem_mergeSort.mpr (tableGet_some_mem_keys st.table ts reqs hreqs)
      exact hterm ts hts reqs hreqs req hreq

/-- Witness for C4 at concrete inputs: placement uniqueness for `reqA`
from the empty table, and a full dispatch of a one-slot table under an
always-succeeding execution oracle. -/
theorem C4_round_trip_witness :
    (oracle2 reqA.alice_id reqA.bob_id = some [0, 1, 2] ∧
     ([0, 1, 2] : List Nat) ≠ [] ∧
     reqA ∉ tableFlatten ([] : Table)) ∧
    (∃ ts, reqA ∈ tableGetD (try_schedule_request oracle2 ⟨[], [], 1⟩ reqA 1).2.table ts ∧
      ∀ ts', reqA ∈ tableGetD (try_schedule_request oracle2 ⟨[], [], 1⟩ reqA 1).2.table ts' →
        ts' = ts) ∧
    ((send_scheduled_requests oracle2 (fun _ => true)
        ⟨[(1, [reqA])], [], [], []⟩).table = [] ∧
     ∀ ts reqs, tableGet [(1, [reqA])] ts = some reqs → ∀ req ∈ reqs,
       (req, ts) ∈ (send_scheduled_requests oracle2 (fun _ => true)
          ⟨[(1, [reqA])], [], [], []⟩).executed ∨
       ∃ fr ∈ (send_scheduled_requests oracle2 (fun _ => true)
          ⟨[(1, [reqA])], [], [], []⟩).failed, fr.req = req) :=
  ⟨⟨by decide, by decide, by decide⟩,
   (C4_round_trip oracle2 (fun _ => true)).1 ⟨[], [], 1⟩ reqA 1 [0, 1, 2]
     (by decide) (by decide) (by decide),
   (C4_round_trip oracle2 (fun _ => true)).2 ⟨[(1, [reqA])], [], [], []⟩⟩

/-- The dictionary returned by `Controller.generate_schedule_report`.
A failure detail is the tuple
`(alice_id, bob_id, num_qubits, circuit_depth, route)`; the `reason`
entry is the recorded reason, a constant default in every dispatch path,
and is omitted like in `FailedRec`. -/
structure Report where
  success : Nat
  failed : Nat
  scheduled : Nat
  failed_details : List (Nat × Nat × Nat × Option Nat × Option (List Nat))
deriving Repr

/-- `Controller.generate_schedule_report()`: the source computes
`len(executed) if executed else 0` (and likewise for the other two
counters, where `scheduled_requests` is the timeslot dict, so `len` counts
keys), prints, and fills `failed_details` from the failure records.  It
only reads controller state, which the purely functional signature makes
explicit. -/
def generate_schedule_report (executed : List (Request × Nat))
    (failed : List FailedRec) (table : Table) : Report :=
  { success := if executed.isEmpty then 0 else executed.length,
    failed := if failed.isEmpty then 0 else failed.length,
    scheduled := if table.isEmpty then 0 else table.length,
    failed_details := failed.map (fun fr =>
      (fr.req.alice_id, fr.req.bob_id, fr.req.num_qubits,
       fr.req.circuit_depth, fr.route)) }

/-- **C7 counterexample.**  With a single timeslot holding the two
requests `reqA` and `reqB`, the report's `scheduled` field is `1` (the
number of timeslot keys of the dict), not `2` (the number of
currently-scheduled requests summed across timeslots), refuting the
claim's description of `scheduled`. -/
theorem C7_report_scheduled_counterexample :
    (generate_schedule_report [] [] [(1, [reqA, reqB])]).scheduled = 1 ∧
    (tableFlatten [(1, [reqA, reqB])]).length = 2 ∧
    (generate_schedule_report [] [] [(1, [reqA, reqB])]).scheduled
      ≠ (tableFlatten [(1, [reqA, reqB])]).length := by decide

/-- **C7 (amended).**  `generate_schedule_report` returns `success` equal
to the number of executed records, `failed` equal to the number of failure
records, `scheduled` equal to the number of timeslot keys currently in
the ScheduleTable (not the number of scheduled requests), and one failure
detail per failure record; it reads and never mutates the scheduler state
(the embedding is a pure function of that state). -/
theorem C7_amended_report_counts (executed : List (Request × Nat))
    (failed : List FailedRec) (table : Table) :
    (generate_schedule_report executed failed table).success = executed.length ∧
    (generate_schedule_report executed failed table).failed = failed.length ∧
    (generate_schedule_report executed failed table).scheduled = table.length ∧
    (generate_schedule_report executed failed table).failed_details.length
      = failed.length := by
  refine ⟨?_, ?_, ?_, by simp [generate_schedule_report]⟩
  · by_cases h : executed.isEmpty
    · simp [generate_schedule_report, h, List.isEmpty_iff.mp h]
    · simp [generate_schedule_report, h]
  · by_cases h : failed.isEmpty
    · simp [generate_schedule_report, h, List.isEmpty_iff.mp h]
    · simp [generate_schedule_report, h]
  · by_cases h : table.isEmpty
    · simp [generate_schedule_report, h, List.isEmpty_iff.mp h]
    · simp [generate_schedule_report, h]

/-- The request status values the dispatcher writes
(`'executado'`, `'falhou'`, `'erro'`). -/
inductive Status where
  | executado
  | falhou
  | erro
deriving DecidableEq, Repr

/-- `Network.execute_request(request)`, the dispatch entry point of
`network.py`: select the handler by protocol and run it (`runApp`
abstracts `ApplicationLayer.run_app`).  A raised exception is modelled as
`Except.error`; for an unrecognized protocol the source logs
`Protocolo não reconhecido`, sets `status = 'erro'` and returns `False` —
it does not raise. -/
def network_execute_request (runApp : Protocol → Request → Bool)
    (req : Request) : Except Unit (Bool × Status) :=
  match req.protocol with
  | Protocol.acbqc =>
    let s := runApp Protocol.acbqc req
    Except.ok (s, if s then Status.executado else Status.falhou)
  | Protocol.bfkbqc =>
    let s := runApp Protocol.bfkbqc req
    Except.ok (s, if s then Status.executado else Status.falhou)
  | Protocol.qkde91 => Except.ok (false, Status.erro)

/-- `Controller.initialize_slices(network, clients, server, protocols,
slice_paths_list)`: raise `ValueError` when the three lists differ in
length, else build the slice configuration entries
`(client, server, path, protocol)` in order. -/
def initialize_slices (clients : List Nat) (server : Nat)
    (protocols : List Protocol) (slice_paths_list : List (List (List Nat))) :
    Except Unit (List (Nat × Nat × List (List Nat) × Protocol)) :=
  if clients.length ≠ protocols.length ∨ protocols.length ≠ slice_paths_list.length then
    Except.error ()
  else
    Except.ok ((clients.zip (protocols.zip slice_paths_list)).map
      (fun cps => (cps.1, server, cps.2.2, cps.2.1)))

/-- Dict lookup `protocol_to_slice.get(protocol)`. -/
def lookupSlice : List (Protocol × Nat) → Protocol → Option Nat
  | [], _ => none
  | p :: rest, proto => if p.1 = proto then some p.2 else lookupSlice rest proto

/-- The request loop of `Controller.map_requests_to_slices`, with the
accumulated per-slice dict: raise on the first request whose protocol has
no mapped slice, else append the request to its slice's list.  (Python
checks `if not slice_id`, which also fires on a falsy mapped value; the
repository's slice ids are the non-empty strings `slice_i`, here opaque
naturals, so only the missing-key case arises.) -/
def map_requests_aux (p2s : List (Protocol × Nat)) :
    List Request → List (Nat × List Request) →
    Except Unit (List (Nat × List Request))
  | [], acc => Except.ok acc
  | req :: rest, acc =>
    match lookupSlice p2s req.protocol with
    | none => Except.error ()
    | some sid => map_requests_aux p2s rest (tableAppend acc sid req)

/-- `Controller.map_requests_to_slices(requests, protocol_to_slice)`. -/
def map_requests_to_slices (requests : List Request)
    (p2s : List (Protocol × Nat)) : Except Unit (List (Nat × List Request)) :=
  map_requests_aux p2s requests []

/-- **C8 counterexample.**  Executing the request `reqC`, whose protocol
`QKD_E91` is unrecognized by the dispatch `if/elif` chain, does not raise:
`Network.execute_request` returns normally with `False` and status
`'erro'`, refuting the claim that an unrecognized protocol at dispatch
time raises a configuration error to the caller. -/
theorem C8_dispatch_no_raise_counterexample :
    network_execute_request (fun _ _ => true) reqC
      = Except.ok (false, Status.erro) ∧
    network_execute_request (fun _ _ => true) reqC ≠ Except.error () :=
  ⟨rfl, fun h => Except.noConfusion h⟩

/-- **C8 (amended).**  `initialize_slices` raises whenever the clients,
protocols and slice-path lists do not all have equal length, and
`map_requests_to_slices` raises whenever some request's protocol has no
mapped slice — both immediately, unrecovered; but an unrecognized
protocol at dispatch time does not raise: `Network.execute_request`
returns `False` with the request status set to `'erro'`. -/
theorem C8_amended_config_errors :
    (∀ (clients : List Nat) (server : Nat) (protocols : List Protocol)
        (spl : List (List (List Nat))),
      (clients.length ≠ protocols.length ∨ protocols.length ≠ spl.length) →
      initialize_slices clients server protocols spl = Except.error ()) ∧
    (∀ (requests : List Request) (p2s : List (Protocol × Nat)) (req : Request),
      req ∈ requests → lookupSlice p2s req.protocol = none →
      map_requests_to_slices requests p2s = Except.error ()) ∧
    (∀ (runApp : Protocol → Request → Bool) (req : Request),
      req.protocol = Protocol.qkde91 →
      network_execute_request runApp req = Except.ok (false, Status.erro)) := by
  refine ⟨?_, ?_, ?_⟩
  · intro clients server protocols spl h
    rw [initialize_slices, if_pos h]
  · intro requests p2s req hmem hnone
    rw [map_requests_to_slices]
    have haux : ∀ (l : List Request) (acc : List (Nat × List Request)),
        req ∈ l → map_requests_aux p2s l acc = Except.error () := by
      intro l
      induction l with
      | nil => intro acc h; cases h
      | cons r rest ih =>
        intro acc h
        rcases List.mem_cons.mp h with rfl | h'
        · rw [map_requests_aux, hnone]
        · rw [map_requests_aux]
          rcases hl : lookupSlice p2s r.protocol with _ | sid
          · rfl
          · exact ih _ h'
    exact haux requests [] hmem
  · intro runApp req h
    simp [network_execute_request, h]

/-- Witness for the amended C8: a length mismatch, a missing protocol
mapping, and the unrecognized-protocol request `reqC`. -/
theorem C8_amended_config_errors_witness :
    ((([0] : List Nat).length ≠ ([] : List Protocol).length ∨
        ([] : List Protocol).length ≠ ([] : List (List (List Nat))).length) ∧
     reqA ∈ [reqA] ∧
     lookupSlice [] reqA.protocol = none ∧
     reqC.protocol = Protocol.qkde91) ∧
    (initialize_slices [0] 7 [] [] = Except.error () ∧
     map_requests_to_slices [reqA] [] = Except.error () ∧
     network_execute_request (fun _ _ => false) reqC
       = Except.ok (false, Status.erro)) :=
  ⟨⟨by decide, by decide, by decide, by decide⟩,
   ⟨C8_amended_config_errors.1 [0] 7 [] [] (by decide),
    C8_amended_config_errors.2.1 [reqA] [] reqA (by decide) (by decide),
    C8_amended_config_errors.2.2 (fun _ _ => false) reqC (by decide)⟩⟩

/-- The batching loop `for i in range(0, len(requests), num_slices)` of
`Controller.schedule_requests`: consecutive slices of `n` requests.  The
`fuel` argument (instantiated with the list length, always enough for
`n ≥ 1`) only expresses the loop as structural recursion. -/
def chunkAux (n : Nat) : Nat → List Request → List (List Request)
  | 0, _ => []
  | _ + 1, [] => []
  | fuel + 1, r :: rest =>
    (r :: rest).take n :: chunkAux n fuel ((r :: rest).drop n)

/-- The batches of size `n` of a request list, in order. -/
def chunkList (n : Nat) (l : List Request) : List (List Request) :=
  chunkAux n l.length l

/-- The `scheduled_timeslots[current_timeslot] = ...; current_timeslot += 1`
assembly: successive batches get successive timeslot keys starting at
`t0` (= 1 in the source). -/
def assignSlots (t0 : Nat) : List (List Request) → List (Nat × List Request)
  | [] => []
  | b :: rest => (t0, b) :: assignSlots (t0 + 1) rest

/-- The annotation step of `Controller.schedule_requests`:
`slice_id = f"slice_{protocols.index(protocol) + 1}"`, raising
(`ValueError`, hence `Except.error`) when the protocol is not in the
list; then `path = slice_paths.get(slice_id)` and
`if path: request['slice_path'] = path` (no annotation for a missing or
falsy path). -/
def annotateReq (protos : List Protocol) (paths : List (List Nat))
    (req : Request) : Except Unit Request :=
  match protos.findIdx? (fun q => decide (q = req.protocol)) with
  | none => Except.error ()
  | some idx =>
    match paths.get? idx with
    | some path =>
      Except.ok (if path.isEmpty then req else { req with slice_path := some path })
    | none => Except.ok req

/-- `Controller.schedule_requests(requests, slice_paths, protocols)`:
raise when no protocol list is given (source guard) or when no slice-path
dict is given (`len(None)` raises) or when it is empty
(`range(0, len, 0)` raises); otherwise partition the requests into
consecutive batches of `N = len(slice_paths)` assigned to timeslots
`1..k`, and annotate every request of every batch with the path of the
slice selected by its protocol's index. -/
def schedule_requests (requests : List Request)
    (slicePaths : Option (List (List Nat))) (protocols : Option (List Protocol)) :
    Except Unit (List (Nat × List Request)) :=
  match protocols with
  | none => Except.error ()
  | some protos =>
    match slicePaths with
    | none => Except.error ()
    | some paths =>
      if paths.length = 0 then Except.error ()
      else
        (assignSlots 1 (chunkList paths.length requests)).mapM
          (fun e => (e.2.mapM (annotateReq protos paths)).map (fun b => (e.1, b)))

theorem chunkAux_spec (n : Nat) (hn : 1 ≤ n) :
    ∀ (fuel : Nat) (l : List Request), l.length ≤ fuel →
      (l.length ≤ (chunkAux n fuel l).length * n ∧
        (chunkAux n fuel l).length * n < l.length + n) ∧
      (∀ i, i < (chunkAux n fuel l).length →
        (chunkAux n fuel l).get? i = some ((l.drop (i * n)).take n)) ∧
      (∀ b ∈ chunkAux n fuel l, ∀ req ∈ b, req ∈ l) := by
  intro fuel
  induction fuel with
  | zero =>
    intro l hl
    have h0 : l = [] := List.length_eq_zero.mp (by omega)
    subst h0
    exact ⟨⟨by simp [chunkAux], by simp [chunkAux]; omega⟩,
      by simp [chunkAux], by simp [chunkAux]⟩
  | succ fuel ih =>
    intro l hl
    rcases l with _ | ⟨r, rest⟩
    · exact ⟨⟨by simp [chunkAux], by simp [chunkAux]; omega⟩,
        by simp [chunkAux], by simp [chunkAux]⟩
    · simp only [chunkAux]
      have hdl : ((r :: rest).drop n).length ≤ fuel := by
        simp only [List.length_drop, List.length_cons] at *
        omega
      obtain ⟨⟨ha, hb⟩, hget, hmem⟩ := ih ((r :: rest).drop n) hdl
      have hlen : ((r :: rest).drop n).length = (r :: rest).length - n := by
        simp
      refine ⟨?_, ?_, ?_⟩
      · have hargs : ((r :: rest).drop n).length = rest.length + 1 - n := by simp
        have hmul : ((chunkAux n fuel ((r :: rest).drop n)).length + 1) * n
            = (chunkAux n fuel ((r :: rest).drop n)).length * n + n := by ring
        rcases Nat.le_total n (rest.length + 1) with hcase | hcase
        · constructor
          · simp only [List.length_cons]
            omega
          · simp only [List.length_cons]
            omega
        · have hdrop : (r :: rest).drop n = [] := by
            apply List.drop_eq_nil_of_le
            simp only [List.length_cons]
            omega
          have hnil : chunkAux n fuel ([] : List Request) = [] := by
            cases fuel <;> rfl
          rw [hdrop, hnil]
          constructor
          · simp only [List.length_cons, List.length_nil]
            omega
          · simp only [List.length_cons, List.length_nil]
            omega
      · intro i hi
        rcases i with _ | i
        · simp
        · simp only [List.length_cons, List.get?] at hi ⊢
          rw [hget i (by omega), List.drop_drop]
          have harith : n + i * n = (i + 1) * n := by ring
          rw [harith]
      · intro b hb req hreq
        rcases List.mem_cons.mp hb with rfl | hb'
        · exact List.mem_of_mem_take hreq
        · exact List.mem_of_mem_drop (hmem b hb' req hreq)

theorem assignSlots_mem (t0 : Nat) (bs : List (List Request))
    (e : Nat × List Request) (he : e ∈ assignSlots t0 bs) : e.2 ∈ bs := by
  induction bs generalizing t0 with
  | nil => cases he
  | cons b rest ih =>
    rcases List.mem_cons.mp he with rfl | he'
    · exact List.mem_cons_self _ _
    · exact List.mem_cons_of_mem _ (ih (t0 + 1) he')

theorem assignSlots_keys (t0 : Nat) :
    ∀ (bs : List (List Request)),
      (assignSlots t0 bs).map (fun e => e.1) = List.range' t0 bs.length := by
  intro bs
  induction bs generalizing t0 with
  | nil => rfl
  | cons b rest ih => simp [assignSlots, ih, List.range'_succ]

theorem assignSlots_shape (t0 : Nat) :
    ∀ (bs : List (List Request)),
      (assignSlots t0 bs).length = bs.length ∧
      (∀ i, (assignSlots t0 bs).get? i
        = (bs.get? i).map (fun b => (t0 + i, b))) := by
  intro bs
  induction bs generalizing t0 with
  | nil => exact ⟨rfl, by simp [assignSlots]⟩
  | cons b rest ih =>
    obtain ⟨hl, hg⟩ := ih (t0 + 1)
    refine ⟨by simp [assignSlots, hl], ?_⟩
    intro i
    rcases i with _ | i
    · simp [assignSlots]
    · simp only [assignSlots, List.get?, hg]
      have : t0 + 1 + i = t0 + (i + 1) := by omega
      rw [this]

/-- The annotated form C9 claims each request receives: its
`slice_path` becomes the slice path at the index of its protocol in the
protocol list. -/
def claimedAnnotate (protos : List Protocol) (paths : List (List Nat))
    (req : Request) : Request :=
  { req with slice_path :=
      paths.get? ((protos.findIdx? (fun q => decide (q = req.protocol))).getD 0) }

theorem annotateReq_covered (protos : List Protocol) (paths : List (List Nat))
    (req : Request) (idx : Nat)
    (hidx : protos.findIdx? (fun q => decide (q = req.protocol)) = some idx)
    (hlt : idx < paths.length) (hne : paths.get? idx ≠ some []) :
    annotateReq protos paths req = Except.ok (claimedAnnotate protos paths req) := by
  rcases hp : paths.get? idx with _ | path
  · exfalso
    have hx := List.get?_eq_none.mp hp
    omega
  · have hpne : path ≠ [] := by
      intro hh
      subst hh
      exact hne hp
    have hp2 : paths[idx]? = some path := by
      rw [← List.get?_eq_getElem?]
      exact hp
    simp [annotateReq, hidx, hp, hp2, hpne, claimedAnnotate]

theorem batch_mapM_ok (protos : List Protocol) (paths : List (List Nat))
    (covered : Request → Prop)
    (hcov : ∀ req, covered req → ∃ idx,
      protos.findIdx? (fun q => decide (q = req.protocol)) = some idx ∧
      idx < paths.length ∧ paths.get? idx ≠ some []) :
    ∀ (b : List Request), (∀ req ∈ b, covered req) →
      b.mapM (annotateReq protos paths)
        = Except.ok (b.map (claimedAnnotate protos paths)) := by
  intro b
  induction b with
  | nil => intro _; rfl
  | cons req rest ih =>
    intro hall
    obtain ⟨idx, h1, h2, h3⟩ := hcov req (hall req (List.mem_cons_self _ _))
    rw [List.mapM_cons, annotateReq_covered protos paths req idx h1 h2 h3,
      ih (fun r hr => hall r (List.mem_cons_of_mem _ hr))]
    rfl

theorem slots_mapM_ok (protos : List Protocol) (paths : List (List Nat))
    (covered : Request → Prop)
    (hcov : ∀ req, covered req → ∃ idx,
      protos.findIdx? (fun q => decide (q = req.protocol)) = some idx ∧
      idx < paths.length ∧ paths.get? idx ≠ some []) :
    ∀ (slots : List (Nat × List Request)),
      (∀ e ∈ slots, ∀ req ∈ e.2, covered req) →
      slots.mapM (fun e => (e.2.mapM (annotateReq protos paths)).map
          (fun b => (e.1, b)))
        = Except.ok (slots.map (fun e =>
            (e.1, e.2.map (claimedAnnotate protos paths)))) := by
  intro slots
  induction slots with
  | nil => intro _; rfl
  | cons e rest ih =>
    intro hall
    rw [List.mapM_cons,
      batch_mapM_ok protos paths covered hcov e.2
        (fun r hr => hall e (List.mem_cons_self _ _) r hr),
      ih (fun x hx r hr => hall x (List.mem_cons_of_mem _ hx) r hr)]
    rfl

/-- **C9.** For every request list and slice-path table of size `N ≥ 1`,
with a protocol list that covers the requests' protocols (each with an
in-range slice index and a truthy slice path), `schedule_requests`
returns a mapping whose keys are exactly the consecutive timeslots
`1 .. ceil(|R| / N)`, where the `i`-th timeslot holds precisely the batch
`R[(i-1)*N .. i*N - 1]` in order, each request annotated with the slice
path selected by its protocol's index in the protocol list. -/
theorem C9_fixed_capacity_batching (requests : List Request)
    (paths : List (List Nat)) (protos : List Protocol)
    (hN : 1 ≤ paths.length)
    (hcov : ∀ req ∈ requests, ∃ idx,
      protos.findIdx? (fun q => decide (q = req.protocol)) = some idx ∧
      idx < paths.length ∧ paths.get? idx ≠ some []) :
    ∃ result,
      schedule_requests requests (some paths) (some protos) = Except.ok result ∧
      result.length = (requests.length + paths.length - 1) / paths.length ∧
      result.map (fun e => e.1) = List.range' 1 result.length ∧
      ∀ i, i < result.length →
        result.get? i = some (i + 1,
          ((requests.drop (i * paths.length)).take paths.length).map
            (claimedAnnotate protos paths)) := by
  obtain ⟨⟨ha, hb⟩, hget, hmem⟩ :=
    chunkAux_spec paths.length hN requests.length requests (le_refl _)
  obtain ⟨hsl, hsg⟩ := assignSlots_shape 1 (chunkList paths.length requests)
  have hcl : chunkList paths.length requests
      = chunkAux paths.length requests.length requests := rfl
  have hrun : schedule_requests requests (some paths) (some protos)
      = Except.ok ((assignSlots 1 (chunkList paths.length requests)).map
          (fun e => (e.1, e.2.map (claimedAnnotate protos paths)))) := by
    rw [schedule_requests]
    rw [if_neg (by omega)]
    exact slots_mapM_ok protos paths (fun req => req ∈ requests) hcov _
      (fun e he req hreq =>
        hmem e.2 (hcl ▸ assignSlots_mem 1 (chunkList paths.length requests) e he)
          req hreq)
  refine ⟨_, hrun, ?_, ?_, ?_⟩
  · rw [List.length_map, hsl, hcl]
    have hmul : ((chunkAux paths.length requests.length requests).length + 1)
        * paths.length
        = (chunkAux paths.length requests.length requests).length * paths.length
          + paths.length := by ring
    exact (Nat.div_eq_of_lt_le (by omega) (by omega)).symm
  · rw [List.map_map]
    have hcomp : ((fun e => e.1) ∘ fun e : Nat × List Request =>
        (e.1, e.2.map (claimedAnnotate protos paths))) = fun e => e.1 := rfl
    rw [hcomp, assignSlots_keys, List.length_map, hsl]
  · intro i hi
    rw [List.length_map, hsl, hcl] at hi
    rw [List.get?_map, hsg i, hcl, hget i hi]
    have h1i : 1 + i = i + 1 := Nat.add_comm 1 i
    simp [h1i]

/-- A concrete request with protocol `AC_BQC`, used five times for the
fixed-capacity batching scenario. -/
def req5 : Request := ⟨0, 9, 2, 3, Protocol.acbqc, none, none⟩

/-- Witness for C9: five requests with identical protocol under slice
capacity 2 — the theorem instance yields `ceil(5/2) = 3` timeslots keyed
`1, 2, 3` with batch sizes `[2, 2, 1]`. -/
theorem C9_fixed_capacity_batching_witness :
    ((1 : Nat) ≤ ([[0, 1], [2, 3]] : List (List Nat)).length ∧
      (∀ req ∈ [req5, req5, req5, req5, req5], ∃ idx,
        ([Protocol.acbqc] : List Protocol).findIdx?
          (fun q => decide (q = req.protocol)) = some idx ∧
        idx < ([[0, 1], [2, 3]] : List (List Nat)).length ∧
        ([[0, 1], [2, 3]] : List (List Nat)).get? idx ≠ some [])) ∧
    (∃ result,
      schedule_requests [req5, req5, req5, req5, req5]
          (some [[0, 1], [2, 3]]) (some [Protocol.acbqc]) = Except.ok result ∧
      result.length = (([req5, req5, req5, req5, req5] : List Request).length
          + ([[0, 1], [2, 3]] : List (List Nat)).length - 1)
          / ([[0, 1], [2, 3]] : List (List Nat)).length ∧
      result.map (fun e => e.1) = List.range' 1 result.length ∧
      ∀ i, i < result.length →
        result.get? i = some (i + 1,
          ((([req5, req5, req5, req5, req5] : List Request).drop
              (i * ([[0, 1], [2, 3]] : List (List Nat)).length)).take
              ([[0, 1], [2, 3]] : List (List Nat)).length).map
            (claimedAnnotate [Protocol.acbqc] [[0, 1], [2, 3]]))) := by
  have hcov : ∀ req ∈ [req5, req5, req5, req5, req5], ∃ idx,
      ([Protocol.acbqc] : List Protocol).findIdx?
        (fun q => decide (q = req.protocol)) = some idx ∧
      idx < ([[0, 1], [2, 3]] : List (List Nat)).length ∧
      ([[0, 1], [2, 3]] : List (List Nat)).get? idx ≠ some [] := by
    intro req hreq
    have h : req = req5 := by simpa using hreq
    subst h
    exact ⟨0, by decide, by decide, by decide⟩
  exact ⟨⟨by decide, hcov⟩,
    C9_fixed_capacity_batching [req5, req5, req5, req5, req5]
      [[0, 1], [2, 3]] [Protocol.acbqc] (by decide) hcov⟩

end QNet
